import Mathlib

/-!
Shallow embedding of `scripts/filter_playlist.py` (an IPTV M3U playlist
fetcher/filter).  Text is modelled as `List Char`; Python strings map to
char lists, `str.splitlines` / `str.strip` / `str.startswith` / `in` are
modelled by the executable functions below, and the two stateful loops of
`filter_playlist` (the outer index cursor and the inner URL search) are
modelled by explicit state passing.
-/

set_option autoImplicit false

namespace PlaylistFilter

/-- Whitespace characters stripped by Python `str.strip()` (the
`Py_UNICODE_ISSPACE` set). -/
def pySpaceChars : List Char :=
  ['\t', '\n', Char.ofNat 0x0B, Char.ofNat 0x0C, '\r', ' ',
   Char.ofNat 0x1C, Char.ofNat 0x1D, Char.ofNat 0x1E, Char.ofNat 0x1F,
   Char.ofNat 0x85, Char.ofNat 0xA0, Char.ofNat 0x1680,
   Char.ofNat 0x2000, Char.ofNat 0x2001, Char.ofNat 0x2002, Char.ofNat 0x2003,
   Char.ofNat 0x2004, Char.ofNat 0x2005, Char.ofNat 0x2006, Char.ofNat 0x2007,
   Char.ofNat 0x2008, Char.ofNat 0x2009, Char.ofNat 0x200A,
   Char.ofNat 0x2028, Char.ofNat 0x2029, Char.ofNat 0x202F,
   Char.ofNat 0x205F, Char.ofNat 0x3000]

/-- Predicate for Python whitespace. -/
def isPySpace (c : Char) : Bool := pySpaceChars.contains c

/-- Line-boundary characters recognised by Python `str.splitlines`
(`\r\n` is additionally treated as a single boundary). -/
def lineBreakChars : List Char :=
  ['\n', '\r', Char.ofNat 0x0B, Char.ofNat 0x0C,
   Char.ofNat 0x1C, Char.ofNat 0x1D, Char.ofNat 0x1E,
   Char.ofNat 0x85, Char.ofNat 0x2028, Char.ofNat 0x2029]

/-- Predicate for `str.splitlines` line boundaries. -/
def isLineBreak (c : Char) : Bool := lineBreakChars.contains c

/-- Worker for `pySplitlines`: `acc` holds the current line reversed. -/
def pySplitlinesAux : List Char → List Char → List (List Char)
  | acc, [] => if acc.isEmpty then [] else [acc.reverse]
  | acc, [c] =>
    if isLineBreak c then [acc.reverse]
    else [(c :: acc).reverse]
  | acc, c :: c2 :: cs =>
    if c = '\r' ∧ c2 = '\n' then acc.reverse :: pySplitlinesAux [] cs
    else if isLineBreak c then acc.reverse :: pySplitlinesAux [] (c2 :: cs)
    else pySplitlinesAux (c :: acc) (c2 :: cs)

/-- Python `str.splitlines()`: split at line boundaries, `\r\n` counting
as one boundary, with no empty line produced after a trailing boundary. -/
def pySplitlines (t : List Char) : List (List Char) := pySplitlinesAux [] t

/-- Python `str.rstrip()`: drop trailing whitespace. -/
def pyRstrip (l : List Char) : List Char :=
  (l.reverse.dropWhile isPySpace).reverse

/-- Python `str.strip()`: drop leading and trailing whitespace. -/
def pyStrip (l : List Char) : List Char :=
  pyRstrip (l.dropWhile isPySpace)

/-- Python `a.startswith(pat)` on char lists. -/
def isPre : List Char → List Char → Bool
  | [], _ => true
  | _ :: _, [] => false
  | p :: ps, c :: cs => p == c && isPre ps cs

/-- Python `needle in hay` (substring containment) on char lists. -/
def containsL (needle : List Char) : List Char → Bool
  | [] => needle.isEmpty
  | c :: cs => isPre needle (c :: cs) || containsL needle cs

/-- Header token `#EXTM3U` (source line 54). -/
def hEXTM3U : List Char := ['#', 'E', 'X', 'T', 'M', '3', 'U']

/-- Directive token `#EXTINF` (source line 65). -/
def hEXTINF : List Char := ['#', 'E', 'X', 'T', 'I', 'N', 'F']

/-- Literal text of the regex `group-title="` up to the capture group
(source line 24, `GROUP_TITLE_PATTERN`). -/
def gtPat : List Char := ['g', 'r', 'o', 'u', 'p', '-', 't', 'i', 't', 'l', 'e', '=', '\"']

/-- Byte-order mark stripped by `line.lstrip("﻿")` (source line 55). -/
def bomChar : Char := Char.ofNat 0xFEFF

/-- Remainder of `l` after the first occurrence of `pat`, if `pat`
occurs in `l` (leftmost match of the regex search). -/
def searchDrop (pat : List Char) : List Char → Option (List Char)
  | [] => none
  | c :: cs =>
    if isPre pat (c :: cs) then some (List.drop pat.length (c :: cs))
    else searchDrop pat cs

/-- Model of `extract_group_title` (source lines 45-47): the first
`group-title="([^\x22]*)"` capture of the line, or `""` when the regex
does not match.  The regex matches at the leftmost occurrence of the
literal `group-title="` that is followed by a closing quote, capturing
the run of non-quote characters between; when the first occurrence has
no closing quote after it, no later occurrence can exist (any later
occurrence ends with a quote located after the first one), so the
search fails and the result is `""`. -/
def extract_group_title (line : List Char) : List Char :=
  match searchDrop gtPat line with
  | none => []
  | some rest =>
    if rest.contains '\"' then rest.takeWhile (fun c => ¬(c = '\"')) else []

/-- Lines skipped by the inner URL-search loop of `filter_playlist`
(source lines 76-83): blank after stripping, or starting with `#`. -/
def skipLine (c : List Char) : Bool := c.isEmpty || c.head? == some '#'

/-- Model of the inner URL-search loop (source lines 74-85): starting
from the lines after a directive, skip blank and `#`-prefixed lines and
return the first substantive stripped line together with the lines after
it, or `none` when input ends first. -/
def findStream : List (List Char) → Option (List Char × List (List Char))
  | [] => none
  | l :: ls =>
    if skipLine (pyStrip l) then findStream ls else some (pyStrip l, ls)

/-- Model of the main `while index < len(lines)` loop of
`filter_playlist` (source lines 63-91), rendered as a state machine:
`none` means the cursor is scanning for a directive line; `some d` means
directive `d` (already stripped) was found and the cursor is inside the
inner URL-search loop.  When a substantive line is found the entry is
kept iff some keyword is a substring of the extracted group title, and
the cursor resumes right after the consumed URL line (`index =
next_index + 1`); when input ends while searching, the pending directive
is dropped (in the source the cursor then re-walks the remaining blank
or `#`-prefixed lines, which provably emit and count nothing).  Returns
the appended output lines and the sequence of group titles of kept
entries (the `Counter` increments, in order). -/
def filterScan (kws : List (List Char)) : Option (List Char) → List (List Char) → List (List Char) × List (List Char)
  | _, [] => ([], [])
  | none, l :: ls =>
    if isPre hEXTINF (pyStrip l) then filterScan kws (some (pyStrip l)) ls
    else filterScan kws none ls
  | some d, l :: ls =>
    if skipLine (pyStrip l) then filterScan kws (some d) ls
    else if kws.any (fun k => containsL k (extract_group_title d)) then
      (d :: pyStrip l :: (filterScan kws none ls).1,
       extract_group_title d :: (filterScan kws none ls).2)
    else filterScan kws none ls

/-- Model of the header search (source lines 54-59): the first line
whose content, after dropping leading byte-order marks and stripping
whitespace, starts with `#EXTM3U`, or the default `#EXTM3U`. -/
def findHeader : List (List Char) → List Char
  | [] => hEXTM3U
  | l :: ls =>
    let n := pyStrip (l.dropWhile (fun c => c = bomChar))
    if isPre hEXTM3U n then n else findHeader ls

/-- Python `"\n".join` on char-list lines. -/
def joinNL : List (List Char) → List Char
  | [] => []
  | [l] => l
  | l :: l2 :: ls => l ++ '\n' :: joinNL (l2 :: ls)

/-- Model of `filter_playlist` (source lines 50-93): split into lines,
pick the header, run the scanning loop, join the output lines with
newlines and append a trailing newline.  The second component is the
sequence of group titles of kept entries; the source's
`Counter` is this sequence up to multiplicity (see `keptCount`). -/
def filter_playlist (text : List Char) (kws : List (List Char)) : List Char × List (List Char) :=
  ((joinNL (findHeader (pySplitlines text) :: (filterScan kws none (pySplitlines text)).1)) ++ ['\n'],
   (filterScan kws none (pySplitlines text)).2)

/-- Count of a category label in the kept sequence: the value
`kept_by_group[g]` of the source's `Counter`. -/
def keptCount (kept : List (List Char)) (g : List Char) : Nat := kept.count g

/-- Errors raised by `fetch_text` (source lines 40-42): `noSources`
models `RuntimeError("no source URLs were provided")`, `allFailed e`
models `RuntimeError(f"failed to fetch source playlist: ...") from e`
carrying the last recorded underlying error. -/
inductive FetchError (ε : Type) : Type where
  | noSources : FetchError ε
  | allFailed : ε → FetchError ε

/-- Worker for `fetch_text`: the `for url in urls` loop carrying
`last_error` (source lines 29-42).  `attempt` models one
`urllib.request.urlopen` + decode round trip: `Except.ok` is a decoded
body, `Except.error` a caught `URLError`/`TimeoutError`/`OSError`. -/
def fetchAux {υ ε τ : Type} (attempt : υ → Except ε τ) : List υ → Option ε → Except (FetchError ε) (τ × υ)
  | [], none => Except.error FetchError.noSources
  | [], some e => Except.error (FetchError.allFailed e)
  | u :: us, _ =>
    match attempt u with
    | Except.ok t => Except.ok (t, u)
    | Except.error e => fetchAux attempt us (some e)

/-- Model of `fetch_text` (source lines 27-42): try each source in
order, return the first success together with the url that produced it,
otherwise raise per `FetchError`. -/
def fetch_text {υ ε τ : Type} (attempt : υ → Except ε τ) (urls : List υ) : Except (FetchError ε) (τ × υ) :=
  fetchAux attempt urls none

/-- Trace of the sources actually attempted by `fetch_text`: every
source up to and including the first success (one attempt per source,
stopping at the first `Except.ok`). -/
def fetchAttempts {υ ε τ : Type} (attempt : υ → Except ε τ) : List υ → List υ
  | [] => []
  | u :: us =>
    match attempt u with
    | Except.ok _ => [u]
    | Except.error _ => u :: fetchAttempts attempt us

/-- Offset, among the given lines, of the first line that the inner
URL-search loop would accept (non-blank, not `#`-prefixed after
stripping), if any.  Used to state the cursor update of the main loop. -/
def findSubFrom : List (List Char) → Option Nat
  | [] => none
  | l :: ls =>
    if skipLine (pyStrip l) then (findSubFrom ls).map (fun k => k + 1)
    else some 0

/-- Value of `index` after one iteration of the main loop of
`filter_playlist` when the iteration starts at `i` (source lines 63-91):
`i + 1` when `lines[i]` is not a directive or no candidate URL line
exists after it, and one past the consumed URL line otherwise
(`index = next_index + 1`). -/
def nextIndex (L : List (List Char)) (i : Nat) : Nat :=
  if isPre hEXTINF (pyStrip (L.getD i [])) then
    match findSubFrom (L.drop (i + 1)) with
    | some k => i + 1 + k + 1
    | none => i + 1
  else i + 1

/-! ### Basic lemmas about stripping -/

theorem dropWhile_dropWhile {α : Type} (p : α → Bool) (l : List α) :
    (l.dropWhile p).dropWhile p = l.dropWhile p := by
  induction l with
  | nil => rfl
  | cons a t ih =>
    by_cases h : p a = true
    · simp [List.dropWhile_cons, h, ih]
    · simp only [Bool.not_eq_true] at h
      simp [List.dropWhile_cons, h]

theorem head?_dropWhile {α : Type} (p : α → Bool) (l : List α) (a : α)
    (h : (l.dropWhile p).head? = some a) : p a = false := by
  induction l with
  | nil => simp at h
  | cons b t ih =>
    by_cases hb : p b = true
    · simp [List.dropWhile_cons, hb] at h
      exact ih h
    · simp only [Bool.not_eq_true] at hb
      simp [List.dropWhile_cons, hb] at h
      rw [← h]
      exact hb

theorem mem_dropWhile {α : Type} (p : α → Bool) (l : List α) (a : α)
    (h : a ∈ l.dropWhile p) : a ∈ l := by
  induction l with
  | nil => simp at h
  | cons b t ih =>
    by_cases hb : p b = true
    · simp only [List.dropWhile_cons, hb, if_true] at h
      exact List.mem_cons_of_mem _ (ih h)
    · simp only [Bool.not_eq_true] at hb
      simp only [List.dropWhile_cons, hb] at h
      simpa using h

theorem pyRstrip_append (l : List Char) :
    pyRstrip l ++ (l.reverse.takeWhile isPySpace).reverse = l := by
  have h := List.takeWhile_append_dropWhile (p := isPySpace) (l := l.reverse)
  unfold pyRstrip
  calc (l.reverse.dropWhile isPySpace).reverse ++ (l.reverse.takeWhile isPySpace).reverse
      = (l.reverse.takeWhile isPySpace ++ l.reverse.dropWhile isPySpace).reverse := by
        rw [List.reverse_append]
    _ = l := by rw [h, List.reverse_reverse]

theorem pyRstrip_idem (l : List Char) : pyRstrip (pyRstrip l) = pyRstrip l := by
  unfold pyRstrip
  rw [List.reverse_reverse, dropWhile_dropWhile]

theorem mem_pyRstrip (l : List Char) (a : Char) (h : a ∈ pyRstrip l) : a ∈ l := by
  unfold pyRstrip at h
  rw [List.mem_reverse] at h
  have := mem_dropWhile _ _ _ h
  rwa [List.mem_reverse] at this

theorem mem_pyStrip (l : List Char) (a : Char) (h : a ∈ pyStrip l) : a ∈ l := by
  unfold pyStrip at h
  exact mem_dropWhile _ _ _ (mem_pyRstrip _ _ h)

theorem pyRstrip_head? (l : List Char) (a : Char) (h : (pyRstrip l).head? = some a) :
    l.head? = some a := by
  have happ := pyRstrip_append l
  cases hr : pyRstrip l with
  | nil => rw [hr] at h; simp at h
  | cons b t =>
    rw [hr] at h happ
    simp at h
    rw [← happ, h]
    simp

theorem pyStrip_idem (l : List Char) : pyStrip (pyStrip l) = pyStrip l := by
  unfold pyStrip
  have hdrop : (pyRstrip (l.dropWhile isPySpace)).dropWhile isPySpace
      = pyRstrip (l.dropWhile isPySpace) := by
    cases hr : pyRstrip (l.dropWhile isPySpace) with
    | nil => rfl
    | cons a t =>
      have ha : (l.dropWhile isPySpace).head? = some a := by
        apply pyRstrip_head?
        rw [hr]; rfl
      have : isPySpace a = false := head?_dropWhile _ _ _ ha
      simp [List.dropWhile_cons, this]
  rw [hdrop, pyRstrip_idem]

theorem pyStrip_nil : pyStrip [] = [] := rfl

theorem pyStrip_eq_self (l : List Char)
    (h1 : ∀ c, l.head? = some c → isPySpace c = false)
    (h2 : ∀ c, l.getLast? = some c → isPySpace c = false) :
    pyStrip l = l := by
  have hd : l.dropWhile isPySpace = l := by
    cases l with
    | nil => rfl
    | cons a t =>
      have := h1 a rfl
      simp [List.dropWhile_cons, this]
  have hrev : l.reverse.dropWhile isPySpace = l.reverse := by
    cases hlr : l.reverse with
    | nil => rfl
    | cons a t =>
      have ha : l.getLast? = some a := by
        rw [← List.head?_reverse, hlr]; rfl
      have := h2 a ha
      simp [List.dropWhile_cons, this]
  unfold pyStrip pyRstrip
  rw [hd, hrev, List.reverse_reverse]

/-! ### Lemmas about `isPre`, `containsL`, `searchDrop` -/

theorem isPre_m3u_head (l : List Char) (h : isPre hEXTM3U l = true) :
    ∃ t, l = '#' :: t := by
  cases l with
  | nil => simp [hEXTM3U, isPre] at h
  | cons c cs =>
    refine ⟨cs, ?_⟩
    simp only [hEXTM3U, isPre, Bool.and_eq_true, beq_iff_eq] at h
    rw [h.1]

theorem m3u_not_extinf (l : List Char) (h : isPre hEXTM3U l = true) :
    isPre hEXTINF l = false := by
  match l with
  | [] => simp [hEXTM3U, isPre] at h
  | [c0] => simp [hEXTM3U, isPre] at h
  | [c0, c1] => simp [hEXTM3U, isPre] at h
  | [c0, c1, c2] => simp [hEXTM3U, isPre] at h
  | [c0, c1, c2, c3] => simp [hEXTM3U, isPre] at h
  | c0 :: c1 :: c2 :: c3 :: c4 :: rest =>
    simp only [hEXTM3U, isPre, Bool.and_eq_true, beq_iff_eq] at h
    obtain ⟨h0, h1, h2, h3, h4, h5⟩ := h
    subst h0; subst h1; subst h2; subst h3; subst h4
    have hIM : ('I' == 'M') = false := by decide
    simp [hEXTINF, isPre, hIM]

theorem containsL_nil_left (g : List Char) : containsL [] g = true := by
  induction g with
  | nil => rfl
  | cons c cs ih => simp [containsL, isPre]

theorem containsL_nil_right (k : List Char) : containsL k [] = k.isEmpty := rfl

theorem searchDrop_eq_none (pat l : List Char) (h : containsL pat l = false) :
    searchDrop pat l = none := by
  induction l with
  | nil => rfl
  | cons c cs ih =>
    simp only [containsL, Bool.or_eq_false_iff] at h
    simp [searchDrop, h.1, ih h.2]

theorem any_perm {α : Type} {l l2 : List α} (h : l.Perm l2) (f : α → Bool) :
    l.any f = l2.any f := by
  cases ha : l.any f with
  | true =>
    rw [List.any_eq_true] at ha
    obtain ⟨x, hx, hfx⟩ := ha
    rw [eq_comm, List.any_eq_true]
    exact ⟨x, h.mem_iff.mp hx, hfx⟩
  | false =>
    rw [List.any_eq_false] at ha
    rw [eq_comm, List.any_eq_false]
    intro x hx
    exact ha x (h.mem_iff.mpr hx)

/-! ### Lemmas about `pySplitlines` -/

theorem splitAux_nonbreak (c : Char) (acc xs : List Char) (h : isLineBreak c = false) :
    pySplitlinesAux acc (c :: xs) = pySplitlinesAux (c :: acc) xs := by
  have hcr : ¬(c = '\r') := by
    intro hc
    rw [hc] at h
    simp [isLineBreak, lineBreakChars] at h
  cases xs with
  | nil => simp [pySplitlinesAux, h]
  | cons d ds =>
    have : ¬(c = '\r' ∧ d = '\n') := fun hx => hcr hx.1
    simp [pySplitlinesAux, this, h]

theorem splitAux_newline (acc xs : List Char) :
    pySplitlinesAux acc ('\n' :: xs) = acc.reverse :: pySplitlinesAux [] xs := by
  cases xs with
  | nil => simp [pySplitlinesAux]; decide
  | cons d ds =>
    have h1 : ¬('\n' = '\r' ∧ d = '\n') := fun hx => by
      have := hx.1
      simp at this
    have h2 : isLineBreak '\n' = true := by decide
    simp [pySplitlinesAux, h1, h2]

theorem splitAux_append (l : List Char) (hl : ∀ c ∈ l, isLineBreak c = false) :
    ∀ acc rest, pySplitlinesAux acc (l ++ rest) = pySplitlinesAux (l.reverse ++ acc) rest := by
  induction l with
  | nil => intro acc rest; rfl
  | cons c cs ih =>
    intro acc rest
    have hc : isLineBreak c = false := hl c (by simp)
    have hcs : ∀ x ∈ cs, isLineBreak x = false := fun x hx => hl x (by simp [hx])
    rw [List.cons_append, splitAux_nonbreak c _ _ hc, ih hcs]
    simp

theorem joinNL_split (lines : List (List Char)) (hne : lines ≠ [])
    (hnb : ∀ l ∈ lines, ∀ c ∈ l, isLineBreak c = false) :
    pySplitlines (joinNL lines ++ ['\n']) = lines := by
  induction lines with
  | nil => exact absurd rfl hne
  | cons l ls ih =>
    cases ls with
    | nil =>
      unfold pySplitlines
      rw [joinNL, splitAux_append l (hnb l (by simp)) [] ['\n'], splitAux_newline]
      simp [pySplitlinesAux]
    | cons l2 ls2 =>
      unfold pySplitlines
      have hstep : joinNL (l :: l2 :: ls2) ++ ['\n']
          = l ++ '\n' :: (joinNL (l2 :: ls2) ++ ['\n']) := by
        rw [joinNL]
        simp
      rw [hstep, splitAux_append l (hnb l (by simp)) [] _, splitAux_newline]
      simp only [List.append_nil, List.reverse_reverse]
      have := ih (by simp) (fun x hx c hc => hnb x (by simp [hx]) c hc)
      unfold pySplitlines at this
      rw [this]

theorem mem_splitAux_noBreak :
    ∀ (n : Nat) (rest : List Char), rest.length ≤ n →
      ∀ acc, (∀ c ∈ acc, isLineBreak c = false) →
        ∀ l ∈ pySplitlinesAux acc rest, ∀ c ∈ l, isLineBreak c = false := by
  intro n
  induction n with
  | zero =>
    intro rest hlen acc hacc l hl c hc
    have : rest = [] := List.length_eq_zero.mp (Nat.le_zero.mp hlen)
    subst this
    by_cases he : acc.isEmpty
    · simp [pySplitlinesAux, he] at hl
    · simp [pySplitlinesAux, he] at hl
      rw [hl] at hc
      exact hacc c (by simpa using hc)
  | succ n ih =>
    intro rest hlen acc hacc l hl c hc
    match rest with
    | [] =>
      by_cases he : acc.isEmpty
      · simp [pySplitlinesAux, he] at hl
      · simp [pySplitlinesAux, he] at hl
        rw [hl] at hc
        exact hacc c (by simpa using hc)
    | [a] =>
      by_cases hb : isLineBreak a = true
      · simp [pySplitlinesAux, hb] at hl
        rw [hl] at hc
        exact hacc c (by simpa using hc)
      · simp only [Bool.not_eq_true] at hb
        simp [pySplitlinesAux, hb] at hl
        rw [hl] at hc
        simp at hc
        rcases hc with hc | hc
        · exact hacc c hc
        · rw [hc]; exact hb
    | a :: d :: ds =>
      have hds : ds.length ≤ n := by
        simp at hlen
        omega
      have hdds : (d :: ds).length ≤ n := by
        simp at hlen ⊢
        omega
      by_cases hrn : a = '\r' ∧ d = '\n'
      · simp only [pySplitlinesAux, if_pos hrn] at hl
        rcases List.mem_cons.mp hl with hl | hl
        · rw [hl] at hc
          exact hacc c (by simpa using hc)
        · exact ih ds hds [] (by simp) l hl c hc
      · by_cases hb : isLineBreak a = true
        · simp only [pySplitlinesAux, if_neg hrn, if_pos hb] at hl
          rcases List.mem_cons.mp hl with hl | hl
          · rw [hl] at hc
            exact hacc c (by simpa using hc)
          · exact ih (d :: ds) hdds [] (by simp) l hl c hc
        · simp only [Bool.not_eq_true] at hb
          simp only [pySplitlinesAux, if_neg hrn, hb] at hl
          simp only [Bool.false_eq_true, if_false] at hl
          refine ih (d :: ds) hdds (a :: acc) ?_ l hl c hc
          intro x hx
          rcases List.mem_cons.mp hx with hx | hx
          · rw [hx]; exact hb
          · exact hacc x hx

theorem mem_pySplitlines_noBreak (t : List Char) (l : List Char)
    (hl : l ∈ pySplitlines t) : ∀ c ∈ l, isLineBreak c = false :=
  mem_splitAux_noBreak t.length t (Nat.le_refl _) [] (by simp) l hl

/-! ### Lemmas about `findStream` and `filterScan` -/

theorem findStream_some_props (ls : List (List Char)) (url : List Char)
    (rest : List (List Char)) (h : findStream ls = some (url, rest)) :
    pyStrip url = url ∧ skipLine url = false ∧ ∃ l ∈ ls, url = pyStrip l := by
  induction ls with
  | nil => simp [findStream] at h
  | cons l t ih =>
    by_cases hs : skipLine (pyStrip l) = true
    · simp only [findStream, if_pos hs] at h
      obtain ⟨h1, h2, l2, hl2, h3⟩ := ih h
      exact ⟨h1, h2, l2, List.mem_cons_of_mem _ hl2, h3⟩
    · simp only [Bool.not_eq_true] at hs
      simp only [findStream, hs, Bool.false_eq_true, if_false, Option.some.injEq,
        Prod.mk.injEq] at h
      refine ⟨?_, ?_, l, by simp, h.1.symm⟩
      · rw [← h.1, pyStrip_idem]
      · rw [← h.1]; exact hs

theorem findStream_none_iff (ls : List (List Char)) :
    findStream ls = none ↔ ∀ l ∈ ls, skipLine (pyStrip l) = true := by
  induction ls with
  | nil => simp [findStream]
  | cons l t ih =>
    by_cases hs : skipLine (pyStrip l) = true
    · simp only [findStream, if_pos hs]
      rw [ih]
      constructor
      · intro h x hx
        rcases List.mem_cons.mp hx with hx | hx
        · rw [hx]; exact hs
        · exact h x hx
      · intro h x hx
        exact h x (List.mem_cons_of_mem _ hx)
    · simp only [Bool.not_eq_true] at hs
      simp only [findStream, hs, Bool.false_eq_true, if_false]
      constructor
      · intro h; simp at h
      · intro h
        have := h l (by simp)
        rw [hs] at this
        simp at this

theorem filterScan_no_directive (kws : List (List Char)) (lines : List (List Char))
    (h : ∀ l ∈ lines, isPre hEXTINF (pyStrip l) = false) :
    filterScan kws none lines = ([], []) := by
  induction lines with
  | nil => rfl
  | cons l t ih =>
    have hl := h l (by simp)
    simp only [filterScan, hl, Bool.false_eq_true, if_false]
    exact ih (fun x hx => h x (List.mem_cons_of_mem _ hx))

theorem filterScan_out_mem (kws : List (List Char)) :
    ∀ (lines : List (List Char)) (pending : Option (List Char)) (o : List Char),
      o ∈ (filterScan kws pending lines).1 →
        (∃ l ∈ lines, o = pyStrip l) ∨ pending = some o := by
  intro lines
  induction lines with
  | nil =>
    intro pending o ho
    cases pending <;> simp [filterScan] at ho
  | cons l t ih =>
    intro pending o ho
    cases pending with
    | none =>
      by_cases hd : isPre hEXTINF (pyStrip l) = true
      · simp only [filterScan, if_pos hd] at ho
        rcases ih (some (pyStrip l)) o ho with ⟨l2, hl2, h2⟩ | h2
        · exact Or.inl ⟨l2, List.mem_cons_of_mem _ hl2, h2⟩
        · simp only [Option.some.injEq] at h2
          exact Or.inl ⟨l, by simp, h2.symm⟩
      · simp only [Bool.not_eq_true] at hd
        simp only [filterScan, hd, Bool.false_eq_true, if_false] at ho
        rcases ih none o ho with ⟨l2, hl2, h2⟩ | h2
        · exact Or.inl ⟨l2, List.mem_cons_of_mem _ hl2, h2⟩
        · simp at h2
    | some d =>
      by_cases hs : skipLine (pyStrip l) = true
      · simp only [filterScan, if_pos hs] at ho
        rcases ih (some d) o ho with ⟨l2, hl2, h2⟩ | h2
        · exact Or.inl ⟨l2, List.mem_cons_of_mem _ hl2, h2⟩
        · exact Or.inr h2
      · simp only [Bool.not_eq_true] at hs
        by_cases hk : kws.any (fun k => containsL k (extract_group_title d)) = true
        · simp only [filterScan, hs, Bool.false_eq_true, if_false, if_pos hk] at ho
          rcases List.mem_cons.mp ho with ho | ho
          · exact Or.inr (by rw [ho])
          rcases List.mem_cons.mp ho with ho | ho
          · exact Or.inl ⟨l, by simp, ho⟩
          · rcases ih none o ho with ⟨l2, hl2, h2⟩ | h2
            · exact Or.inl ⟨l2, List.mem_cons_of_mem _ hl2, h2⟩
            · simp at h2
        · simp only [Bool.not_eq_true] at hk
          simp only [filterScan, hs, hk, Bool.false_eq_true, if_false] at ho
          rcases ih none o ho with ⟨l2, hl2, h2⟩ | h2
          · exact Or.inl ⟨l2, List.mem_cons_of_mem _ hl2, h2⟩
          · simp at h2

theorem filterScan_perm (kws kws2 : List (List Char)) (hp : kws.Perm kws2) :
    ∀ (lines : List (List Char)) (pending : Option (List Char)),
      filterScan kws pending lines = filterScan kws2 pending lines := by
  intro lines
  induction lines with
  | nil => intro pending; cases pending <;> rfl
  | cons l t ih =>
    intro pending
    cases pending with
    | none =>
      by_cases hd : isPre hEXTINF (pyStrip l) = true
      · simp only [filterScan, if_pos hd, ih]
      · simp only [Bool.not_eq_true] at hd
        simp only [filterScan, hd, Bool.false_eq_true, if_false, ih]
    | some d =>
      by_cases hs : skipLine (pyStrip l) = true
      · simp only [filterScan, if_pos hs, ih]
      · simp only [Bool.not_eq_true] at hs
        have hany := any_perm hp (fun k => containsL k (extract_group_title d))
        simp only [filterScan, hs, Bool.false_eq_true, if_false, hany, ih]

theorem filterScan_pending_none (kws : List (List Char)) (d : List Char)
    (ls : List (List Char)) (h : findStream ls = none) :
    filterScan kws (some d) ls = ([], []) := by
  induction ls with
  | nil => rfl
  | cons l t ih =>
    rw [findStream_none_iff] at h
    have hl := h l (by simp)
    simp only [filterScan, if_pos hl]
    refine ih ?_
    rw [findStream_none_iff]
    exact fun x hx => h x (List.mem_cons_of_mem _ hx)

theorem filterScan_pending_some (kws : List (List Char)) (d : List Char) :
    ∀ (ls : List (List Char)) (url : List Char) (rest : List (List Char)),
      findStream ls = some (url, rest) →
        filterScan kws (some d) ls =
          (if kws.any (fun k => containsL k (extract_group_title d)) then
            (d :: url :: (filterScan kws none rest).1,
             extract_group_title d :: (filterScan kws none rest).2)
          else filterScan kws none rest) := by
  intro ls
  induction ls with
  | nil => intro url rest h; simp [findStream] at h
  | cons l t ih =>
    intro url rest h
    by_cases hs : skipLine (pyStrip l) = true
    · simp only [findStream, if_pos hs] at h
      simp only [filterScan, if_pos hs]
      exact ih url rest h
    · simp only [Bool.not_eq_true] at hs
      simp only [findStream, hs, Bool.false_eq_true, if_false, Option.some.injEq,
        Prod.mk.injEq] at h
      simp only [filterScan, hs, Bool.false_eq_true, if_false]
      rw [h.1, h.2]

theorem filterScan_fix (kws : List (List Char)) :
    ∀ (n : Nat) (lines : List (List Char)), lines.length ≤ n →
      (filterScan kws none (filterScan kws none lines).1 = filterScan kws none lines) ∧
      (∀ d, isPre hEXTINF d = true → pyStrip d = d →
        filterScan kws none (filterScan kws (some d) lines).1 = filterScan kws (some d) lines) := by
  intro n
  induction n with
  | zero =>
    intro lines hlen
    have : lines = [] := List.length_eq_zero.mp (Nat.le_zero.mp hlen)
    subst this
    exact ⟨rfl, fun d _ _ => rfl⟩
  | succ n ih =>
    intro lines hlen
    cases lines with
    | nil => exact ⟨rfl, fun d _ _ => rfl⟩
    | cons l t =>
      have ht : t.length ≤ n := by
        simp at hlen
        omega
      constructor
      · by_cases hd : isPre hEXTINF (pyStrip l) = true
        · simp only [filterScan, if_pos hd]
          exact (ih t ht).2 (pyStrip l) hd (pyStrip_idem l)
        · simp only [Bool.not_eq_true] at hd
          simp only [filterScan, hd, Bool.false_eq_true, if_false]
          exact (ih t ht).1
      · intro d hd hds
        by_cases hs : skipLine (pyStrip l) = true
        · simp only [filterScan, if_pos hs]
          exact (ih t ht).2 d hd hds
        · simp only [Bool.not_eq_true] at hs
          by_cases hk : kws.any (fun k => containsL k (extract_group_title d)) = true
          · simp only [filterScan, hs, Bool.false_eq_true, if_false, if_pos hk]
            have hfix := (ih t ht).1
            simp only [filterScan, hds, if_pos hd]
            simp only [filterScan, pyStrip_idem, hs, Bool.false_eq_true, if_false,
              if_pos hk, hfix]
          · simp only [Bool.not_eq_true] at hk
            simp only [filterScan, hs, hk, Bool.false_eq_true, if_false]
            exact (ih t ht).1

/-! ### Lemmas about `findHeader` -/

theorem findHeader_isPre (lines : List (List Char)) :
    isPre hEXTM3U (findHeader lines) = true := by
  induction lines with
  | nil => decide
  | cons l t ih =>
    by_cases h : isPre hEXTM3U (pyStrip (l.dropWhile (fun c => c = bomChar))) = true
    · simp only [findHeader, if_pos h]
      exact h
    · simp only [Bool.not_eq_true] at h
      simp only [findHeader, h, Bool.false_eq_true, if_false]
      exact ih

theorem findHeader_strip (lines : List (List Char)) :
    pyStrip (findHeader lines) = findHeader lines := by
  induction lines with
  | nil => decide
  | cons l t ih =>
    by_cases h : isPre hEXTM3U (pyStrip (l.dropWhile (fun c => c = bomChar))) = true
    · simp only [findHeader, if_pos h]
      exact pyStrip_idem _
    · simp only [Bool.not_eq_true] at h
      simp only [findHeader, h, Bool.false_eq_true, if_false]
      exact ih

theorem findHeader_bom (lines : List (List Char)) :
    (findHeader lines).dropWhile (fun c => c = bomChar) = findHeader lines := by
  obtain ⟨t, ht⟩ := isPre_m3u_head _ (findHeader_isPre lines)
  rw [ht]
  have : ¬('#' = bomChar) := by decide
  simp [List.dropWhile_cons, this]

theorem findHeader_noBreak (lines : List (List Char))
    (h : ∀ l ∈ lines, ∀ c ∈ l, isLineBreak c = false) :
    ∀ c ∈ findHeader lines, isLineBreak c = false := by
  induction lines with
  | nil => intro c hc; fin_cases hc <;> decide
  | cons l t ih =>
    by_cases hm : isPre hEXTM3U (pyStrip (l.dropWhile (fun c => c = bomChar))) = true
    · simp only [findHeader, if_pos hm]
      intro c hc
      exact h l (by simp) c (mem_dropWhile _ _ _ (mem_pyStrip _ _ hc))
    · simp only [Bool.not_eq_true] at hm
      simp only [findHeader, hm, Bool.false_eq_true, if_false]
      exact ih (fun x hx => h x (List.mem_cons_of_mem _ hx))

theorem findHeader_cons_self (h : List Char) (rest : List (List Char))
    (hm : isPre hEXTM3U h = true) (hs : pyStrip h = h)
    (hb : h.dropWhile (fun c => c = bomChar) = h) :
    findHeader (h :: rest) = h := by
  simp only [findHeader, hb, hs, if_pos hm]

theorem filterScan_cons_skip (kws : List (List Char)) (l : List Char)
    (ls : List (List Char)) (h : isPre hEXTINF (pyStrip l) = false) :
    filterScan kws none (l :: ls) = filterScan kws none ls := by
  simp only [filterScan, h, Bool.false_eq_true, if_false]

/-! ### Concrete inputs used by the claims -/

/-- Sample playlist of the spec's worked example (two labelled entries). -/
def txtC4 : List Char :=
  ("#EXTM3U\n#EXTINF:-1 group-title=\"A\",X\nhttp://x\n#EXTINF:-1 group-title=\"B\",Y\nhttp://y\n").toList

/-- Playlist whose first directive has no substantive line before the
second directive. -/
def txtC1 : List Char :=
  ("#EXTINF:-1 group-title=\"A\",X\n#EXTINF:-1 group-title=\"B\",Y\nhttp://y\n").toList

/-- Playlist whose kept directive and URL lines carry surrounding
whitespace. -/
def txtC2 : List Char :=
  ("#EXTM3U\n  #EXTINF:-1 group-title=\"A\",X  \n  http://x  \n").toList

/-- Single-entry playlist with label `CCTV-News`. -/
def txtCCTV : List Char :=
  ("#EXTINF:-1 group-title=\"CCTV-News\",c\nhttp://u\n").toList

/-! ### Claim theorems -/

/-- C3: `filter_playlist` is idempotent: filtering the `filtered_text`
component of `filter_playlist t kws` again with the same keywords yields
the same `filtered_text` (byte-identical) and the same kept counts. -/
theorem claim3_idempotent (t : List Char) (kws : List (List Char)) :
    filter_playlist (filter_playlist t kws).1 kws = filter_playlist t kws := by
  have hnb := mem_pySplitlines_noBreak t
  have houtnb : ∀ o ∈ (filterScan kws none (pySplitlines t)).1,
      ∀ c ∈ o, isLineBreak c = false := by
    intro o ho c hc
    rcases filterScan_out_mem kws (pySplitlines t) none o ho with ⟨l, hl, hol⟩ | h2
    · rw [hol] at hc
      exact hnb l hl c (mem_pyStrip _ _ hc)
    · simp at h2
  have hallnb : ∀ l ∈ findHeader (pySplitlines t) :: (filterScan kws none (pySplitlines t)).1,
      ∀ c ∈ l, isLineBreak c = false := by
    intro l hl
    rcases List.mem_cons.mp hl with hl | hl
    · rw [hl]
      exact findHeader_noBreak _ hnb
    · exact houtnb l hl
  have hsplit := joinNL_split _ (by simp) hallnb
  have hhead := findHeader_cons_self (findHeader (pySplitlines t))
    (filterScan kws none (pySplitlines t)).1 (findHeader_isPre _)
    (findHeader_strip _) (findHeader_bom _)
  have hskip := filterScan_cons_skip kws (findHeader (pySplitlines t))
    (filterScan kws none (pySplitlines t)).1
    (by rw [findHeader_strip]; exact m3u_not_extinf _ (findHeader_isPre _))
  have hfix := (filterScan_fix kws (pySplitlines t).length (pySplitlines t) (Nat.le_refl _)).1
  simp only [filter_playlist]
  rw [hsplit, hhead, hskip, hfix]

/-- C4: on the spec's worked example with keywords `["A"]`,
`filter_playlist` returns exactly the header plus the first entry with a
trailing newline, and the kept counts map `"A"` to 1 and nothing else. -/
theorem claim4_concrete :
    filter_playlist txtC4 [("A").toList]
      = (("#EXTM3U\n#EXTINF:-1 group-title=\"A\",X\nhttp://x\n").toList, [("A").toList])
    ∧ ∀ g : List Char, keptCount (filter_playlist txtC4 [("A").toList]).2 g
        = if g = ("A").toList then 1 else 0 := by
  have hres : filter_playlist txtC4 [("A").toList]
      = (("#EXTM3U\n#EXTINF:-1 group-title=\"A\",X\nhttp://x\n").toList, [("A").toList]) := by
    decide
  refine ⟨hres, ?_⟩
  intro g
  rw [hres]
  by_cases hg : g = ("A").toList
  · rw [hg]
    decide
  · have hg2 : ¬(("A").toList = g) := fun he => hg he.symm
    have hg3 : ¬(['A'] = g) := by
      intro he
      exact hg2 (by rw [← he]; decide)
    have hg4 : ¬(g = ['A']) := fun he => hg3 he.symm
    simp [keptCount, List.count_cons, List.count_nil, hg3, hg4]

/-- C1 counterexample: in `txtC1` the first directive (label `"A"`) has
no substantive line before the next directive, yet `filter_playlist`
emits it (paired with the URL that follows the second directive), counts
it, and never processes the second directive — the claim predicts output
`#EXTM3U\n` with no kept entries. -/
theorem claim1_counterexample :
    filter_playlist txtC1 [("A").toList]
      = (("#EXTM3U\n#EXTINF:-1 group-title=\"A\",X\nhttp://y\n").toList, [("A").toList])
    ∧ (filter_playlist txtC1 [("A").toList]).2 ≠ []
    ∧ (filter_playlist txtC1 [("A").toList]).1 ≠ ("#EXTM3U\n").toList := by
  refine ⟨by decide, by decide, by decide⟩

/-- C1 amended: a directive line followed by no substantive line before
END-OF-INPUT contributes nothing and the scan just moves on; otherwise
the directive pairs with the first substantive line after it, the URL
search skipping every blank or `#`-prefixed line — including subsequent
directive lines, which are consequently never processed on their own. -/
theorem claim1_amended (kws : List (List Char)) (d : List Char) (ls : List (List Char))
    (hd : isPre hEXTINF (pyStrip d) = true) :
    (findStream ls = none → filterScan kws none (d :: ls) = ([], [])) ∧
    (∀ url rest, findStream ls = some (url, rest) →
      filterScan kws none (d :: ls) =
        (if kws.any (fun k => containsL k (extract_group_title (pyStrip d))) then
          (pyStrip d :: url :: (filterScan kws none rest).1,
           extract_group_title (pyStrip d) :: (filterScan kws none rest).2)
        else filterScan kws none rest)) := by
  constructor
  · intro h
    simp only [filterScan, if_pos hd]
    exact filterScan_pending_none kws _ ls h
  · intro url rest h
    simp only [filterScan, if_pos hd]
    exact filterScan_pending_some kws _ ls url rest h

/-- Witness for `claim1_amended` at a concrete directive with empty
remaining input. -/
theorem claim1_amended_witness :
    filterScan [("A").toList] none [("#EXTINF:-1 group-title=\"A\",X").toList] = ([], []) :=
  (claim1_amended [("A").toList] (("#EXTINF:-1 group-title=\"A\",X").toList) []
    (by decide)).1 rfl

/-- C2 counterexample: in `txtC2` the kept directive and URL lines carry
surrounding whitespace; `filter_playlist` emits them stripped, so the
original line never appears in the output and the output differs from
the input text that the claim predicts would be reproduced. -/
theorem claim2_counterexample :
    filter_playlist txtC2 [("A").toList]
      = (("#EXTM3U\n#EXTINF:-1 group-title=\"A\",X\nhttp://x\n").toList, [("A").toList])
    ∧ containsL (("  #EXTINF:-1 group-title=\"A\",X  ").toList)
        (filter_playlist txtC2 [("A").toList]).1 = false
    ∧ (filter_playlist txtC2 [("A").toList]).1 ≠ txtC2 := by
  refine ⟨by decide, by decide, by decide⟩

/-- C2 amended: every line `filter_playlist` appends for a kept entry is
the whitespace-stripped form of a line of the input, which coincides
with the input line exactly when that line has no leading or trailing
whitespace. -/
theorem claim2_amended :
    (∀ (kws lines : List (List Char)) (o : List Char),
      o ∈ (filterScan kws none lines).1 → ∃ l ∈ lines, o = pyStrip l) ∧
    (∀ l : List Char, (∀ c, l.head? = some c → isPySpace c = false) →
      (∀ c, l.getLast? = some c → isPySpace c = false) → pyStrip l = l) := by
  constructor
  · intro kws lines o ho
    rcases filterScan_out_mem kws lines none o ho with h | h
    · exact h
    · simp at h
  · exact pyStrip_eq_self

/-- Witness for `claim2_amended`: the emitted directive of `txtC2` is
the stripped form of a line of the input. -/
theorem claim2_amended_witness :
    ∃ l ∈ pySplitlines txtC2, ("#EXTINF:-1 group-title=\"A\",X").toList = pyStrip l :=
  claim2_amended.1 [("A").toList] (pySplitlines txtC2)
    (("#EXTINF:-1 group-title=\"A\",X").toList) (by decide)

theorem pySplitlines_pair (d u : List Char) (hnb1 : ∀ c ∈ d, isLineBreak c = false)
    (hnb2 : ∀ c ∈ u, isLineBreak c = false) (hu : u ≠ []) :
    pySplitlines (d ++ '\n' :: u) = [d, u] := by
  unfold pySplitlines
  rw [splitAux_append d hnb1 [] ('\n' :: u), splitAux_newline]
  simp only [List.append_nil, List.reverse_reverse]
  congr 1
  have happ := splitAux_append u hnb2 [] []
  rw [List.append_nil] at happ
  rw [happ]
  have hne : u.reverse.isEmpty = false := by
    cases hu2 : u.reverse with
    | nil =>
      exfalso
      exact hu (by rw [← List.reverse_reverse u, hu2]; rfl)
    | cons a t => rfl
  simp [pySplitlinesAux, hne]

/-- C5: the keep decision for an entry with a candidate URL is exactly
"some configured keyword is a literal, case-sensitive substring of the
extracted label"; the label is the first `group-title` capture, or `""`
when the pattern is absent; an empty-string keyword matches every label,
a label `""` matches no nonempty keyword, and `"CCTV-News"` is kept with
keyword `"News"` but dropped with `"news"`. -/
theorem claim5_keep_decision :
    (∀ (d u : List Char) (kws : List (List Char)),
      isPre hEXTINF (pyStrip d) = true →
      skipLine (pyStrip u) = false →
      (∀ c ∈ d, isLineBreak c = false) →
      (∀ c ∈ u, isLineBreak c = false) →
      (filter_playlist (d ++ '\n' :: u) kws).2 =
        (if kws.any (fun k => containsL k (extract_group_title (pyStrip d)))
         then [extract_group_title (pyStrip d)] else [])) ∧
    (∀ (kws : List (List Char)) (g : List Char), [] ∈ kws →
      kws.any (fun k => containsL k g) = true) ∧
    (∀ kws : List (List Char), (∀ k ∈ kws, k ≠ []) →
      kws.any (fun k => containsL k []) = false) ∧
    (∀ line : List Char, containsL gtPat line = false → extract_group_title line = []) ∧
    (filter_playlist txtCCTV [("News").toList]).2 = [("CCTV-News").toList] ∧
    (filter_playlist txtCCTV [("news").toList]).2 = [] := by
  refine ⟨?_, ?_, ?_, ?_, by decide, by decide⟩
  · intro d u kws hd hu hnb1 hnb2
    have hune : u ≠ [] := by
      intro he
      rw [he] at hu
      exact absurd hu (by decide)
    have hsplit := pySplitlines_pair d u hnb1 hnb2 hune
    simp only [filter_playlist]
    rw [hsplit]
    simp only [filterScan, if_pos hd, hu, Bool.false_eq_true, if_false]
    by_cases hk : kws.any (fun k => containsL k (extract_group_title (pyStrip d))) = true
    · simp [filterScan, hk]
    · simp only [Bool.not_eq_true] at hk
      simp [filterScan, hk]
  · intro kws g hk
    rw [List.any_eq_true]
    exact ⟨[], hk, containsL_nil_left g⟩
  · intro kws hk
    rw [List.any_eq_false]
    intro k hkm
    rw [containsL_nil_right]
    cases k with
    | nil => exact absurd rfl (hk [] hkm)
    | cons c cs => simp
  · intro line h
    unfold extract_group_title
    rw [searchDrop_eq_none _ _ h]

/-- Witness for `claim5_keep_decision` at a concrete single-entry
playlist with label `Z` and keyword `Z`. -/
theorem claim5_keep_decision_witness :
    (filter_playlist (("#EXTINF:-1 group-title=\"Z\",c").toList ++ '\n' :: ("http://z").toList)
      [("Z").toList]).2 = [("Z").toList] := by
  have h := claim5_keep_decision.1 (("#EXTINF:-1 group-title=\"Z\",c").toList)
    (("http://z").toList) [("Z").toList] (by decide) (by decide) (by decide) (by decide)
  rw [h]
  decide

/-- C6: `filter_playlist` returns the same filtered text and kept counts
for any permutation of the keyword list. -/
theorem claim6_keyword_perm (t : List Char) (kws kws2 : List (List Char))
    (hp : kws.Perm kws2) : filter_playlist t kws = filter_playlist t kws2 := by
  simp only [filter_playlist]
  rw [filterScan_perm kws kws2 hp]

/-- Witness for `claim6_keyword_perm`: swapping two keywords on the
worked example changes nothing. -/
theorem claim6_keyword_perm_witness :
    filter_playlist txtC4 [("A").toList, ("B").toList]
      = filter_playlist txtC4 [("B").toList, ("A").toList] :=
  claim6_keyword_perm txtC4 _ _ (List.Perm.swap _ _ _)

/-- C7: when no line of the input is a directive line (in particular on
empty or whitespace-only input), the output is exactly the header found
by `findHeader` (first header line after BOM/whitespace stripping, or
the default `#EXTM3U`) followed by one newline, with no kept entries. -/
theorem claim7_no_directive (t : List Char) (kws : List (List Char))
    (h : ∀ l ∈ pySplitlines t, isPre hEXTINF (pyStrip l) = false) :
    filter_playlist t kws = (findHeader (pySplitlines t) ++ ['\n'], []) := by
  simp only [filter_playlist]
  rw [filterScan_no_directive kws _ h]
  simp [joinNL]

/-- Witness for `claim7_no_directive` on whitespace-only input. -/
theorem claim7_no_directive_witness :
    filter_playlist (("  \n\n").toList) [("A").toList]
      = (findHeader (pySplitlines (("  \n\n").toList)) ++ ['\n'], []) :=
  claim7_no_directive _ _ (by decide)

/-- C8: `fetch_text` tries the sources in order and returns on the first
success: with two failing sources before a succeeding one, it returns
the third source's text paired with that source, attempting each source
exactly once. -/
theorem claim8_first_success {υ ε τ : Type} (attempt : υ → Except ε τ)
    (u1 u2 u3 : υ) (e1 e2 : ε) (T : τ)
    (h1 : attempt u1 = Except.error e1) (h2 : attempt u2 = Except.error e2)
    (h3 : attempt u3 = Except.ok T) :
    fetch_text attempt [u1, u2, u3] = Except.ok (T, u3) ∧
    fetchAttempts attempt [u1, u2, u3] = [u1, u2, u3] := by
  constructor
  · simp [fetch_text, fetchAux, h1, h2, h3]
  · simp [fetchAttempts, h1, h2, h3]

/-- Witness for `claim8_first_success` with concrete attempt results. -/
theorem claim8_first_success_witness :
    fetch_text (fun u : Nat => if u = 3 then Except.ok 99 else Except.error u) [1, 2, 3]
      = Except.ok (99, 3) ∧
    fetchAttempts (fun u : Nat => if u = 3 then Except.ok 99 else Except.error u) [1, 2, 3]
      = [1, 2, 3] :=
  claim8_first_success _ 1 2 3 1 2 99 rfl rfl rfl

theorem fetchAux_append_fail {υ ε τ : Type} (attempt : υ → Except ε τ) :
    ∀ (us : List υ), (∀ v ∈ us, ∃ e, attempt v = Except.error e) →
      ∀ (u : υ) (e : ε), attempt u = Except.error e →
        ∀ acc, fetchAux attempt (us ++ [u]) acc
          = Except.error (FetchError.allFailed e) := by
  intro us
  induction us with
  | nil =>
    intro _ u e hu acc
    simp [fetchAux, hu]
  | cons v vs ih =>
    intro hall u e hu acc
    obtain ⟨ev, hev⟩ := hall v (by simp)
    simp only [List.cons_append, fetchAux, hev]
    exact ih (fun x hx => hall x (List.mem_cons_of_mem _ hx)) u e hu (some ev)

/-- C9: `fetch_text` fails exactly as specified when nothing succeeds:
on a non-empty list whose sources all fail it raises the error carrying
the last underlying failure, and on an empty source list it raises the
no-sources error, which carries no underlying failure. -/
theorem claim9_all_fail {υ ε τ : Type} (attempt : υ → Except ε τ) (urls : List υ)
    (hall : ∀ u ∈ urls, ∃ e, attempt u = Except.error e) :
    (urls = [] → fetch_text attempt urls = Except.error FetchError.noSources) ∧
    (∀ us u e, urls = us ++ [u] → attempt u = Except.error e →
      fetch_text attempt urls = Except.error (FetchError.allFailed e)) := by
  constructor
  · intro h
    rw [h]
    rfl
  · intro us u e hurls hu
    rw [hurls]
    rw [hurls] at hall
    exact fetchAux_append_fail attempt us
      (fun x hx => hall x (by simp [hx])) u e hu none

/-- Witness for `claim9_all_fail`: both failing sources attempted, the
error of the last one reported. -/
theorem claim9_all_fail_witness :
    fetch_text (fun u : Nat => (Except.error (u + 10) : Except Nat Nat)) [1, 2]
      = Except.error (FetchError.allFailed 12) :=
  (claim9_all_fail (fun u : Nat => (Except.error (u + 10) : Except Nat Nat)) [1, 2]
    (fun u _ => ⟨u + 10, rfl⟩)).2 [1] 2 12 rfl rfl

theorem nextIndex_ge (L : List (List Char)) (j : Nat) : j + 1 ≤ nextIndex L j := by
  unfold nextIndex
  by_cases hd : isPre hEXTINF (pyStrip (L.getD j [])) = true
  · rw [if_pos hd]
    cases hf : findSubFrom (L.drop (j + 1)) with
    | none => exact Nat.le_refl _
    | some k =>
      show j + 1 ≤ j + 1 + k + 1
      omega
  · rw [if_neg hd]

theorem iterate_ge (f : Nat → Nat) (hf : ∀ j, j + 1 ≤ f j) :
    ∀ (n i : Nat), i + n ≤ f^[n] i := by
  intro n
  induction n with
  | zero => intro i; simp
  | succ n ih =>
    intro i
    rw [Function.iterate_succ_apply]
    have h1 := ih (f i)
    have h2 := hf i
    omega

/-- C10: the main scanning cursor strictly increases on every loop
iteration — by 1 when the current line is not a directive or no
candidate URL line exists, and past the consumed URL line otherwise — so
iterating the loop step from any index gains at least one position per
step and the forward pass terminates. -/
theorem claim10_cursor_progress (L : List (List Char)) (i : Nat) :
    i + 1 ≤ nextIndex L i ∧
    (isPre hEXTINF (pyStrip (L.getD i [])) = false → nextIndex L i = i + 1) ∧
    (∀ k, isPre hEXTINF (pyStrip (L.getD i [])) = true →
      findSubFrom (L.drop (i + 1)) = some k → nextIndex L i = (i + 1 + k) + 1) ∧
    (isPre hEXTINF (pyStrip (L.getD i [])) = true →
      findSubFrom (L.drop (i + 1)) = none → nextIndex L i = i + 1) ∧
    (∀ n, i + n ≤ (fun j => nextIndex L j)^[n] i) := by
  refine ⟨nextIndex_ge L i, ?_, ?_, ?_, ?_⟩
  · intro h
    unfold nextIndex
    rw [if_neg (by rw [h]; simp)]
  · intro k hd hf
    unfold nextIndex
    rw [if_pos hd, hf]
  · intro hd hf
    unfold nextIndex
    rw [if_pos hd, hf]
  · exact fun n => iterate_ge (fun j => nextIndex L j) (nextIndex_ge L) n i

/-- Witness for `claim10_cursor_progress`: a directive followed by a
blank line and a URL advances the cursor past the URL line. -/
theorem claim10_cursor_progress_witness :
    nextIndex [("#EXTINF:-1 group-title=\"A\",X").toList, [], ("http://x").toList] 0 = 3 :=
  (claim10_cursor_progress
    [("#EXTINF:-1 group-title=\"A\",X").toList, [], ("http://x").toList] 0).2.2.1
    1 (by decide) (by decide)

end PlaylistFilter
